/-
Verification of `file_utils.py` (MaiXiaochai/FileUtils).

Shallow embedding: the filesystem is modelled as a tree of named nodes
(`FSNode`); `os.listdir`, `os.path.isdir`, `os.path.join`, `os.path.splitext`,
`shutil.copy`, `shutil.move`, `shutil.rmtree` and `zipfile` are modelled from
their documented POSIX behaviour; the functions of class `FileUtils` are
translated statement by statement.
-/
import Mathlib

namespace FileUtils

/-- Python truthiness of an optional string argument (`if suffix:`):
`None` and `""` are falsy, every other string is truthy. -/
def truthy : Option String → Bool
  | none => false
  | some s => s ≠ ""

/-- `posixpath.join a b` for a single extra component:
if `b` is absolute it replaces `a`; if `a` is empty or ends with the
separator, concatenate; otherwise insert a `/`. -/
def pathJoin (a b : String) : String :=
  if b.data.head? = some '/' then b
  else if a = "" || a.data.getLast? = some '/' then a ++ b
  else a ++ "/" ++ b

/-- Index of the last occurrence of `c` in `l` (as in Python `str.rfind`,
but as an `Option` instead of `-1`). -/
def lastIndexOfAux (c : Char) : List Char → Nat → Option Nat → Option Nat
  | [], _, acc => acc
  | x :: xs, i, acc => lastIndexOfAux c xs (i + 1) (if x = c then some i else acc)

def lastIndexOf (l : List Char) (c : Char) : Option Nat :=
  lastIndexOfAux c l 0 none

/-- `rfind` with Python's `-1` convention for "not found". -/
def rfind (l : List Char) (c : Char) : Int :=
  match lastIndexOf l c with
  | some i => (i : Int)
  | none => -1

/-- The extension component of `os.path.splitext p` (`splitext(p)[-1]`),
following `posixpath._splitext`: take the last `.` after the last `/`;
a dot belonging to the leading run of dots of the basename does not count
(so `.bashrc` has no extension). -/
def splitextExt (p : String) : String :=
  let l := p.data
  let sepIndex := rfind l '/'
  let dotIndex := rfind l '.'
  if sepIndex < dotIndex then
    -- skip the leading dots of the basename: an extension exists only if
    -- some character strictly between them is not a dot
    let filenameIndex := (sepIndex + 1).toNat
    if ((l.drop filenameIndex).take (dotIndex.toNat - filenameIndex)).any (· ≠ '.') then
      String.mk (l.drop dotIndex.toNat)
    else ""
  else ""

/-- Python `key_str in tmp_path`: substring membership. -/
def strContains (hay needle : String) : Bool :=
  decide (needle.data <:+: hay.data)

/-- The suffix normalisation at the top of `list_paths`:
`if suffix: if not suffix.startswith('.'): suffix = '.' + suffix`. -/
def pySuffixNorm : Option String → Option String
  | none => none
  | some s => if s ≠ "" && !(s.data.head? = some '.') then some ("." ++ s) else some s

/-- A filesystem node: a plain file or a directory with an ordered list of
children (the order `os.listdir` yields them in). -/
inductive FSNode where
  | file (name : String)
  | dir (name : String) (children : List FSNode)

def FSNode.name : FSNode → String
  | .file n => n
  | .dir n _ => n

/-- The `found` list built for a non-directory entry in `list_paths`,
in source order: the suffix check is appended first, then the key_str check;
an untruthy filter appends nothing. -/
def foundList (suffix keyStr : Option String) (tmpPath : String) : List Bool :=
  (if truthy suffix then [decide (splitextExt tmpPath = suffix.getD "")] else []) ++
  (if truthy keyStr then [strContains tmpPath (keyStr.getD "")] else [])

mutual
/-- `FileUtils.list_paths(dir_path, depth, suffix, key_str)` where `dir_path`
resolves to the directory node given: normalise the suffix, then scan the
children. -/
def listPathsNode : String → FSNode → Int → Option String → Option String → List String
  | _, .file _, _, _, _ => []
  | dirPath, .dir _ cs, depth, suffix, keyStr =>
    listPathsChildren dirPath cs depth (pySuffixNorm suffix) keyStr
termination_by structural _ node _ _ _ => node

/-- The `for _path in listdir(dir_path)` loop body of `list_paths`:
a directory child is recursed into when `current_dir_level (= 0) < depth`
with `depth - 1`; a file child is yielded when `all(found)`. -/
def listPathsChildren : String → List FSNode → Int → Option String → Option String → List String
  | _, [], _, _, _ => []
  | dirPath, c :: cs, depth, suffix, keyStr =>
    (match c with
     | .dir n gcs =>
        if 0 < depth then
          listPathsNode (pathJoin dirPath n) (.dir n gcs) (depth - 1) suffix keyStr
        else []
     | .file n =>
        let tmpPath := pathJoin dirPath n
        if (foundList suffix keyStr tmpPath).all id then [tmpPath] else [])
    ++ listPathsChildren dirPath cs depth suffix keyStr
termination_by structural _ cs _ _ _ => cs
end

/-- Errors surfaced by the modelled OS calls. -/
inductive OSError where
  | notFound        -- FileNotFoundError
  | notADirectory   -- NotADirectoryError
deriving DecidableEq, Repr

/-- `os.listdir` on a resolved path: a missing path raises
`FileNotFoundError`, a plain file raises `NotADirectoryError`, a directory
yields its children. -/
def listdir : Option FSNode → Except OSError (List FSNode)
  | none => .error .notFound
  | some (.file _) => .error .notADirectory
  | some (.dir _ cs) => .ok cs

/-- `FileUtils.list_paths` as called on a path string: `resolved` is what the
path resolves to in the filesystem (`none` when it does not exist).  The
generator's first step calls `listdir`, so a bad root surfaces the OS error
instead of an empty sequence. -/
def list_paths (resolved : Option FSNode) (dirPath : String) (depth : Int)
    (suffix keyStr : Option String) : Except OSError (List String) :=
  match listdir resolved with
  | .error e => .error e
  | .ok cs => .ok (listPathsChildren dirPath cs depth (pySuffixNorm suffix) keyStr)

/-! ### Spec-side reference definitions (for refinement claims) -/

mutual
/-- Spec: "the set of files reachable within d levels of recursion below T":
all paths of non-directory entries, descending at most `d` subdirectory
levels. -/
def reachableFiles : String → List FSNode → Nat → List String
  | _, [], _ => []
  | p, c :: cs, d => reachableOne p c d ++ reachableFiles p cs d
termination_by structural _ cs _ => cs

def reachableOne : String → FSNode → Nat → List String
  | p, .file n, _ => [pathJoin p n]
  | _, .dir _ _, 0 => []
  | p, .dir n gcs, d + 1 => reachableFiles (pathJoin p n) gcs d
termination_by structural _ node _ => node
end

mutual
/-- `reachableFiles` over the code's `Int` depth (negative depths behave
like depth 0, mirroring the `0 < depth` recursion test). -/
def reachableFilesI : String → List FSNode → Int → List String
  | _, [], _ => []
  | p, c :: cs, d => reachableOneI p c d ++ reachableFilesI p cs d
termination_by structural _ cs _ => cs

def reachableOneI : String → FSNode → Int → List String
  | p, .file n, _ => [pathJoin p n]
  | p, .dir n gcs, d => if 0 < d then reachableFilesI (pathJoin p n) gcs (d - 1) else []
termination_by structural _ node _ => node
end

/-- The children of a node (a file has none). -/
def nodeChildren : FSNode → List FSNode
  | .file _ => []
  | .dir _ cs => cs

/-- The suffix string normalised to carry a leading dot (spec wording). -/
def normStr (s : String) : String :=
  if s.data.head? = some '.' then s else "." ++ s

/-- Spec: conjunction of the configured checks — an absent (or empty) filter
is automatically satisfied; suffix must equal the file's extension after
dot-normalisation; key_str must occur in the full path. -/
def entryOk (suffix keyStr : Option String) (t : String) : Bool :=
  (!truthy suffix || decide (splitextExt t = normStr (suffix.getD ""))) &&
  (!truthy keyStr || strContains t (keyStr.getD ""))

/-- A legal directory-entry name as `os.listdir` can return it:
nonempty and free of the path separator. -/
def validName (n : String) : Bool :=
  n ≠ "" && n.data.all (· ≠ '/')

mutual
/-- Well-formedness of a filesystem node: its name is a legal entry name and
its children (for a directory) are well formed with pairwise distinct
names — the invariants every real directory listing satisfies. -/
def FSNode.wf : FSNode → Bool
  | .file n => validName n
  | .dir n cs => validName n && wfChildren cs

def wfChildren : List FSNode → Bool
  | [] => true
  | c :: cs =>
    FSNode.wf c && cs.all (fun c2 => FSNode.name c2 ≠ FSNode.name c) && wfChildren cs
end

/-- A root path string we may join entry names onto: nonempty and not
ending in the separator (as `os.listdir`-accepted directory paths are
after normalisation). -/
def goodPath (p : String) : Bool :=
  p ≠ "" && p.data.getLast? ≠ some '/'

/-- Shape of what follows the first name segment in a produced path:
either nothing (the entry itself) or a separator and more. -/
def okRest (r : List Char) : Prop :=
  r = [] ∨ ∃ r2, r = '/' :: r2

/-! ### `clean_expiry_files_dirs` -/

/-- An immediate child of the swept directory together with its creation
time (`os.path.getctime`), in seconds.  Times are modelled as rationals. -/
structure Entry where
  node : FSNode
  ctime : ℚ

/-- `shutil.rmtree(path)`: removes a directory subtree; on a plain file the
initial `scandir` raises `NotADirectoryError`. -/
def rmtree : FSNode → Except OSError Unit
  | .file _ => .error .notADirectory
  | .dir _ _ => .ok ()

/-- The `for i in listdir(dir_path)` loop of `clean_expiry_files_dirs`:
each child older than the threshold is `rmtree`d and its path reported
(printed); an exception propagates at once.  Returns the reported paths. -/
def cleanLoop (dirPath : String) (now expirySeconds : ℚ) :
    List Entry → Except OSError (List String)
  | [] => .ok []
  | e :: es =>
    let path_ := pathJoin dirPath e.node.name
    if expirySeconds < now - e.ctime then
      match rmtree e.node with
      | .error err => .error err
      | .ok _ =>
        match cleanLoop dirPath now expirySeconds es with
        | .error err => .error err
        | .ok ps => .ok (path_ :: ps)
    else cleanLoop dirPath now expirySeconds es

/-- `FileUtils.clean_expiry_files_dirs(dir_path, expiry_days)` on a directory
whose immediate children are `entries`, at current time `now`. -/
def clean_expiry_files_dirs (dirPath : String) (now : ℚ) (entries : List Entry)
    (expiry_days : ℚ) : Except OSError (List String) :=
  if expiry_days < 0 then .ok []
  else cleanLoop dirPath now (expiry_days * 24 * 60 ^ 2) entries

/-! ### `copy_files` / `move_files` -/

/-- `os.path.basename` (POSIX): everything after the last `/`. -/
def basename (p : String) : String :=
  String.mk ((p.data.reverse.takeWhile (· ≠ '/')).reverse)

/-- State of the destination path `dst_dir`. -/
inductive DstState where
  | dirWith (names : List String)  -- an existing directory holding these entry names
  | fileAt                         -- an existing plain file at the destination path
  | missing (parentExists : Bool)  -- no such path; parent directory exists or not
deriving DecidableEq, Repr

/-- `OSError`s raised by the modelled `shutil` calls. -/
inductive ShError where
  | notFound      -- FileNotFoundError (missing parent of the written path)
  | shutilError   -- shutil.Error ("Destination path ... already exists")
deriving DecidableEq, Repr

/-- Modelled `shutil.copy(src, dst)`: into an existing directory it writes
`dst/basename(src)` (silently overwriting); onto an existing file path it
overwrites that file; onto a missing path whose parent exists it creates a
plain file at `dst`; with the parent missing, `open` raises
`FileNotFoundError`.  Returns the path written and the new state. -/
def shutilCopy (src dst : String) : DstState → Except ShError (String × DstState)
  | .dirWith ns => .ok (pathJoin dst (basename src), .dirWith (basename src :: ns))
  | .fileAt => .ok (dst, .fileAt)
  | .missing true => .ok (dst, .fileAt)
  | .missing false => .error .notFound

/-- Modelled `shutil.move(src, dst)`: into an existing directory it moves to
`dst/basename(src)` but raises `shutil.Error` when that name already exists
there; otherwise `os.rename` semantics — overwrites an existing file at
`dst`, creates it when only the parent exists, raises `FileNotFoundError`
when the parent is missing too. -/
def shutilMove (src dst : String) : DstState → Except ShError (String × DstState)
  | .dirWith ns =>
    if basename src ∈ ns then .error .shutilError
    else .ok (pathJoin dst (basename src), .dirWith (basename src :: ns))
  | .fileAt => .ok (dst, .fileAt)
  | .missing true => .ok (dst, .fileAt)
  | .missing false => .error .notFound

/-- Errors out of `copy_files` / `move_files`: from the walker or from a
`shutil` call. -/
inductive BulkError where
  | walk (e : OSError)
  | sh (e : ShError)
deriving DecidableEq, Repr

/-- Apply one `shutil` step per source file, threading the destination
state; the first exception aborts the loop.  Returns the destination paths
written, in order. -/
def bulkLoop (step : String → DstState → Except ShError (String × DstState)) :
    List String → DstState → Except ShError (List String)
  | [], _ => .ok []
  | f :: fs, st =>
    match step f st with
    | .error e => .error e
    | .ok (w, st2) =>
      match bulkLoop step fs st2 with
      | .error e => .error e
      | .ok ws => .ok (w :: ws)

/-- `FileUtils.copy_files(src_dir, dst_dir, depth, suffix, key_str)`:
`shutil.copy` each walked file into `dst_dir`. -/
def copy_files (src : Option FSNode) (srcDir dstDir : String) (dst : DstState)
    (depth : Int) (suffix keyStr : Option String) : Except BulkError (List String) :=
  match list_paths src srcDir depth suffix keyStr with
  | .error e => .error (.walk e)
  | .ok files =>
    match bulkLoop (fun f st => shutilCopy f dstDir st) files dst with
    | .error e => .error (.sh e)
    | .ok ws => .ok ws

/-- `FileUtils.move_files(src_dir, dst_dir, depth, suffix)` — note the
source has no `key_str` parameter here: `list_paths(src_dir, depth, suffix)`. -/
def move_files (src : Option FSNode) (srcDir dstDir : String) (dst : DstState)
    (depth : Int) (suffix : Option String) : Except BulkError (List String) :=
  match list_paths src srcDir depth suffix none with
  | .error e => .error (.walk e)
  | .ok files =>
    match bulkLoop (fun f st => shutilMove f dstDir st) files dst with
    | .error e => .error (.sh e)
    | .ok ws => .ok ws

/-! ### `unzip` -/

/-- One progress-bar update (`__progress_bar(no, file_length, zip_path)`). -/
structure Progress where
  completed : Nat
  total : Nat
  label : String
deriving DecidableEq, Repr

/-- `file_name.split('/')[-1] or file_name` in `__progress_bar`:
`split('/')[-1]` is the segment after the last `/` (same as `basename`),
and the `or` falls back to the whole path when that segment is empty. -/
def pyBasenameOr (p : String) : String :=
  if basename p = "" then p else basename p

/-- The `for no, i in enumerate(files, 1)` loop of `unzip`: extract entry
`i`, then emit a progress update.  Each element pairs the entry extracted
with the update emitted right after it. -/
def unzipLoop (zipPath : String) (total : Nat) :
    List String → Nat → List (String × Progress)
  | [], _ => []
  | e :: es, no => (e, ⟨no, total, pyBasenameOr zipPath⟩) :: unzipLoop zipPath total es (no + 1)

/-- `FileUtils.unzip(zip_path, dst_dir)` on an archive whose `namelist()` is
`entries`: the sequence of (entry extracted, progress update) steps. -/
def unzip (zipPath : String) (entries : List String) : List (String × Progress) :=
  unzipLoop zipPath entries.length entries 1

/-- A small concrete tree used as witness input:
`/root/{a.txt, b.zip, sub/{c.zip, d/{e.txt}}}`. -/
def demoTree : List FSNode :=
  [.file "a.txt", .file "b.zip", .dir "sub" [.file "c.zip", .dir "d" [.file "e.txt"]]]

/-- A flat tree exercising the suffix examples of the spec. -/
def zipTree : List FSNode :=
  [.file "a.zip", .file "a.zipx", .file "a.ZIP", .file "report.zippo"]

/-! ## Helper lemmas -/

theorem stringDataInj {a b : String} (h : a.data = b.data) : a = b := by
  cases a; cases b; exact congrArg String.mk h

theorem data_dot_append (s : String) : ("." ++ s).data = '.' :: s.data := by
  rw [String.data_append]; rfl

theorem dot_append_ne_empty (s : String) : ("." ++ s) ≠ "" := by
  intro h
  have h2 : ('.' :: s.data : List Char) = ([] : List Char) := by
    rw [← data_dot_append, h]
  cases h2

theorem head_dot_append (s : String) : ("." ++ s).data.head? = some '.' := by
  rw [data_dot_append]; rfl

theorem dot_append_ne_self (s : String) : ("." ++ s) ≠ s := by
  intro h
  have h2 : ('.' :: s.data : List Char) = s.data := by
    rw [← data_dot_append, h]
  have : ('.' :: s.data).length = s.data.length := by rw [h2]
  simp at this

theorem pySuffixNorm_some (s : String) :
    pySuffixNorm (some s) =
      if s = "" then some ""
      else if s.data.head? = some '.' then some s
      else some ("." ++ s) := by
  by_cases h1 : s = ""
  · subst h1; rfl
  · by_cases h2 : s.data.head? = some '.'
    · simp [pySuffixNorm, h1, h2]
    · simp [pySuffixNorm, h1, h2]

theorem pySuffixNorm_idem (x : Option String) :
    pySuffixNorm (pySuffixNorm x) = pySuffixNorm x := by
  cases x with
  | none => rfl
  | some s =>
    rw [pySuffixNorm_some s]
    by_cases h1 : s = ""
    · simp [h1, pySuffixNorm_some]
    · by_cases h2 : s.data.head? = some '.'
      · simp [h1, h2, pySuffixNorm_some]
      · simp [h1, h2, pySuffixNorm_some, dot_append_ne_empty s, head_dot_append s]

theorem truthy_pySuffixNorm (x : Option String) :
    truthy (pySuffixNorm x) = truthy x := by
  cases x with
  | none => rfl
  | some s =>
    rw [pySuffixNorm_some s]
    by_cases h1 : s = ""
    · simp [h1]
    · by_cases h2 : s.data.head? = some '.'
      · simp [h1, h2]
      · simp [truthy, h1, h2, dot_append_ne_empty s]

theorem entryOk_norm (s k : Option String) :
    entryOk (pySuffixNorm s) k = entryOk s k := by
  funext t
  cases s with
  | none => rfl
  | some str =>
    rw [pySuffixNorm_some str]
    by_cases h1 : str = ""
    · subst h1; simp
    · by_cases h2 : str.data.head? = some '.'
      · simp [h1, h2]
      · rw [if_neg h1, if_neg h2]
        simp only [entryOk, truthy, Option.getD_some]
        have hn1 : normStr ("." ++ str) = "." ++ str := by
          simp [normStr, head_dot_append str]
        have hn2 : normStr str = "." ++ str := by simp [normStr, h2]
        simp [dot_append_ne_empty str, h1, hn1, hn2]

theorem normStr_fix_of_truthy (sfx : Option String)
    (hfix : pySuffixNorm sfx = sfx) (ht : truthy sfx = true) :
    normStr (sfx.getD "") = sfx.getD "" := by
  cases sfx with
  | none => cases ht
  | some s =>
    have h1 : s ≠ "" := by simpa [truthy] using ht
    have hdot : s.data.head? = some '.' := by
      by_contra h2
      rw [pySuffixNorm_some s, if_neg h1, if_neg h2] at hfix
      exact dot_append_ne_self s (Option.some_injective _ hfix)
    simp [normStr, hdot]

theorem foundList_all_eq (sfx k : Option String) (t : String)
    (hfix : pySuffixNorm sfx = sfx) :
    (foundList sfx k t).all id = entryOk sfx k t := by
  simp only [foundList, entryOk]
  cases hsf : truthy sfx <;> cases hk : truthy k
  · simp
  · simp
  · rw [normStr_fix_of_truthy sfx hfix hsf]; simp
  · rw [normStr_fix_of_truthy sfx hfix hsf]; simp

theorem unzipLoop_length (zp : String) (tot : Nat) :
    ∀ (es : List String) (no : Nat), (unzipLoop zp tot es no).length = es.length := by
  intro es
  induction es with
  | nil => intro no; rfl
  | cons e es ih => intro no; simpa [unzipLoop] using ih (no + 1)

theorem unzipLoop_map_fst (zp : String) (tot : Nat) :
    ∀ (es : List String) (no : Nat), (unzipLoop zp tot es no).map Prod.fst = es := by
  intro es
  induction es with
  | nil => intro no; rfl
  | cons e es ih => intro no; simpa [unzipLoop] using ih (no + 1)

theorem unzipLoop_get (zp : String) (tot : Nat) :
    ∀ (es : List String) (no : Nat) (k : Nat) (h : k < (unzipLoop zp tot es no).length),
      ((unzipLoop zp tot es no).get ⟨k, h⟩).2 = ⟨no + k, tot, pyBasenameOr zp⟩ := by
  intro es
  induction es with
  | nil => intro no k h; simp [unzipLoop] at h
  | cons e es ih =>
    intro no k h
    cases k with
    | zero => simp [unzipLoop]
    | succ k =>
      have h2 : k < (unzipLoop zp tot es (no + 1)).length := by
        simpa [unzipLoop] using h
      have := ih (no + 1) k h2
      simp only [unzipLoop, List.get_cons_succ]
      rw [this]
      congr 1
      omega

theorem validName_data {n : String} (h : validName n = true) :
    n.data ≠ [] ∧ ∀ c ∈ n.data, c ≠ '/' := by
  simp only [validName, Bool.and_eq_true, List.all_eq_true, decide_eq_true_eq] at h
  exact ⟨fun hd => h.1 (stringDataInj hd), h.2⟩

theorem goodPath_spec {p : String} (h : goodPath p = true) :
    p.data ≠ [] ∧ p.data.getLast? ≠ some '/' := by
  simp only [goodPath, Bool.and_eq_true, decide_eq_true_eq] at h
  exact ⟨fun hd => h.1 (stringDataInj hd), h.2⟩

theorem data_pathJoin {p n : String} (hn : validName n = true)
    (hp : goodPath p = true) :
    (pathJoin p n).data = p.data ++ '/' :: n.data := by
  obtain ⟨hne, hall⟩ := validName_data hn
  obtain ⟨hpe, hpl⟩ := goodPath_spec hp
  have h1 : ¬ (n.data.head? = some '/') := by
    cases hd : n.data with
    | nil => simp
    | cons c l =>
      simp only [List.head?_cons, Option.some.injEq]
      intro hc
      exact hall c (by simp [hd]) hc
  have h2 : ¬ (p = "") := fun h0 => hpe (by rw [h0])
  have hcond : (p = "" || p.data.getLast? = some '/') = false := by
    simp only [Bool.or_eq_false_iff, decide_eq_false_iff_not]
    exact ⟨h2, hpl⟩
  show (if n.data.head? = some '/' then n
        else if p = "" || p.data.getLast? = some '/' then p ++ n
        else p ++ "/" ++ n).data = p.data ++ '/' :: n.data
  rw [if_neg h1, if_neg (by rw [hcond]; exact Bool.false_ne_true),
    String.data_append, String.data_append]
  simp

theorem goodPath_pathJoin {p n : String} (hn : validName n = true)
    (hp : goodPath p = true) :
    goodPath (pathJoin p n) = true := by
  obtain ⟨hne, hall⟩ := validName_data hn
  have hd := data_pathJoin hn hp
  have hlast : (pathJoin p n).data.getLast? = n.data.getLast? := by
    rw [hd, List.getLast?_append,
      show ('/' :: n.data : List Char) = ['/'] ++ n.data from rfl,
      List.getLast?_append, List.getLast?_eq_getLast n.data hne]
    rfl
  simp only [goodPath, Bool.and_eq_true, decide_eq_true_eq]
  constructor
  · intro h0
    have hnil : (pathJoin p n).data = [] := by rw [h0]
    rw [hd] at hnil
    simp at hnil
  · rw [hlast, List.getLast?_eq_getLast n.data hne]
    intro hc
    exact hall _ (List.getLast_mem hne) (Option.some_injective _ hc)

theorem seg_nil_aux (b : Char) (n2 r1 r2 : List Char) (h2 : '/' ∉ b :: n2)
    (o1 : okRest r1) (he : r1 = b :: (n2 ++ r2)) : False := by
  rcases o1 with h | ⟨r1t, h⟩
  · rw [h] at he; cases he
  · rw [h] at he
    injection he with hb _
    exact h2 (hb ▸ List.mem_cons_self b n2)

theorem seg_eq :
    ∀ (n1 n2 r1 r2 : List Char), '/' ∉ n1 → '/' ∉ n2 →
      okRest r1 → okRest r2 → n1 ++ r1 = n2 ++ r2 → n1 = n2 := by
  intro n1
  induction n1 with
  | nil =>
    intro n2 r1 r2 h1 h2 o1 o2 he
    cases n2 with
    | nil => rfl
    | cons b n2t =>
      exact (seg_nil_aux b n2t r1 r2 h2 o1 (by simpa using he)).elim
  | cons a n1t ih =>
    intro n2 r1 r2 h1 h2 o1 o2 he
    cases n2 with
    | nil =>
      exact (seg_nil_aux a n1t r2 r1 h1 o2 (by simpa using he.symm)).elim
    | cons b n2t =>
      simp only [List.cons_append] at he
      injection he with hab ht
      rw [hab, ih n2t r1 r2 (fun hm => h1 (List.mem_cons_of_mem a hm))
        (fun hm => h2 (List.mem_cons_of_mem b hm)) o1 o2 ht]

theorem wfChildren_cons {c : FSNode} {cs : List FSNode}
    (h : wfChildren (c :: cs) = true) :
    FSNode.wf c = true ∧ (∀ c2 ∈ cs, FSNode.name c2 ≠ FSNode.name c) ∧
      wfChildren cs = true := by
  have hstep : wfChildren (c :: cs) =
      (FSNode.wf c && cs.all (fun c2 => FSNode.name c2 ≠ FSNode.name c)
        && wfChildren cs) := rfl
  rw [hstep] at h
  simp only [Bool.and_eq_true, List.all_eq_true, decide_eq_true_eq] at h
  exact ⟨h.1.1, h.1.2, h.2⟩

theorem wf_dir {n : String} {cs : List FSNode}
    (h : FSNode.wf (.dir n cs) = true) :
    validName n = true ∧ wfChildren cs = true := by
  have hstep : FSNode.wf (.dir n cs) = (validName n && wfChildren cs) := rfl
  rw [hstep] at h
  exact Bool.and_eq_true_iff.mp h

theorem reachable_shape :
    ∀ (p : String) (cs : List FSNode) (d : Nat),
      wfChildren cs = true → goodPath p = true →
      ∀ x ∈ reachableFiles p cs d, ∃ c ∈ cs, ∃ r : List Char,
        x.data = p.data ++ '/' :: (FSNode.name c).data ++ r ∧ okRest r := by
  refine reachableFiles.induct
    (fun p cs d => wfChildren cs = true → goodPath p = true →
      ∀ x ∈ reachableFiles p cs d, ∃ c ∈ cs, ∃ r : List Char,
        x.data = p.data ++ '/' :: (FSNode.name c).data ++ r ∧ okRest r)
    (fun p c d => FSNode.wf c = true → goodPath p = true →
      ∀ x ∈ reachableOne p c d, ∃ r : List Char,
        x.data = p.data ++ '/' :: (FSNode.name c).data ++ r ∧ okRest r)
    ?_ ?_ ?_ ?_ ?_
  · intro p n d hwf hp x hx
    have hx2 : x = pathJoin p n := List.mem_singleton.mp hx
    refine ⟨[], ?_, Or.inl rfl⟩
    rw [hx2, data_pathJoin hwf hp]
    simp [FSNode.name]
  · intro p name gcs _ _ x hx
    cases hx
  · intro p n gcs d ih hwf hp x hx
    obtain ⟨hvn, hwc⟩ := wf_dir hwf
    obtain ⟨c, _, r, hdata, hrest⟩ :=
      ih hwc (goodPath_pathJoin hvn hp) x hx
    refine ⟨'/' :: ((FSNode.name c).data ++ r), ?_, Or.inr ⟨_, rfl⟩⟩
    rw [hdata, data_pathJoin hvn hp]
    simp [FSNode.name, List.append_assoc]
  · intro p d _ _ x hx
    cases hx
  · intro p c cs d ihone ihrest hwf hp x hx
    obtain ⟨hwc, _, hwcs⟩ := wfChildren_cons hwf
    have hx2 : x ∈ reachableOne p c d ∨ x ∈ reachableFiles p cs d := by
      have hstep : reachableFiles p (c :: cs) d =
          reachableOne p c d ++ reachableFiles p cs d := rfl
      rw [hstep] at hx
      exact List.mem_append.mp hx
    rcases hx2 with hx2 | hx2
    · obtain ⟨r, hdata, hrest⟩ := ihone hwc hp x hx2
      exact ⟨c, List.mem_cons_self c cs, r, hdata, hrest⟩
    · obtain ⟨c2, hc2, r, hdata, hrest⟩ := ihrest hwcs hp x hx2
      exact ⟨c2, List.mem_cons_of_mem c hc2, r, hdata, hrest⟩

theorem reachableOne_shape (p : String) (c : FSNode) (d : Nat)
    (hwf : FSNode.wf c = true) (hp : goodPath p = true) :
    ∀ x ∈ reachableOne p c d, ∃ r : List Char,
      x.data = p.data ++ '/' :: (FSNode.name c).data ++ r ∧ okRest r := by
  intro x hx
  cases c with
  | file n =>
    have hx2 : x = pathJoin p n := List.mem_singleton.mp hx
    refine ⟨[], ?_, Or.inl rfl⟩
    rw [hx2, data_pathJoin hwf hp]
    simp [FSNode.name]
  | dir n gcs =>
    cases d with
    | zero => cases hx
    | succ d =>
      obtain ⟨hvn, hwc⟩ := wf_dir hwf
      obtain ⟨c2, _, r, hdata, hrest⟩ :=
        reachable_shape (pathJoin p n) gcs d hwc (goodPath_pathJoin hvn hp) x hx
      refine ⟨'/' :: ((FSNode.name c2).data ++ r), ?_, Or.inr ⟨_, rfl⟩⟩
      rw [hdata, data_pathJoin hvn hp]
      simp [FSNode.name, List.append_assoc]

theorem wf_name_data {c : FSNode} (h : FSNode.wf c = true) :
    (FSNode.name c).data ≠ [] ∧ '/' ∉ (FSNode.name c).data := by
  have hv : validName (FSNode.name c) = true := by
    cases c with
    | file n => exact h
    | dir n cs => exact (wf_dir h).1
  obtain ⟨h1, h2⟩ := validName_data hv
  exact ⟨h1, fun hm => h2 '/' hm rfl⟩

theorem wfChildren_mem {cs : List FSNode} (h : wfChildren cs = true) :
    ∀ c ∈ cs, FSNode.wf c = true := by
  induction cs with
  | nil => intro c hc; cases hc
  | cons c3 cs3 ih =>
    intro c hc
    obtain ⟨h1, _, h3⟩ := wfChildren_cons h
    rcases List.mem_cons.mp hc with hh | hh
    · exact hh ▸ h1
    · exact ih h3 c hh

theorem reachable_nodup :
    ∀ (p : String) (cs : List FSNode) (d : Nat),
      wfChildren cs = true → goodPath p = true →
      (reachableFiles p cs d).Nodup := by
  refine reachableFiles.induct
    (fun p cs d => wfChildren cs = true → goodPath p = true →
      (reachableFiles p cs d).Nodup)
    (fun p c d => FSNode.wf c = true → goodPath p = true →
      (reachableOne p c d).Nodup)
    ?_ ?_ ?_ ?_ ?_
  · intro p n d _ _
    exact List.nodup_singleton _
  · intro p name gcs _ _
    exact List.nodup_nil
  · intro p n gcs d ih hwf hp
    obtain ⟨hvn, hwc⟩ := wf_dir hwf
    exact ih hwc (goodPath_pathJoin hvn hp)
  · intro p d _ _
    exact List.nodup_nil
  · intro p c cs d ihone ihrest hwf hp
    obtain ⟨hwc, hdist, hwcs⟩ := wfChildren_cons hwf
    have hstep : reachableFiles p (c :: cs) d =
        reachableOne p c d ++ reachableFiles p cs d := rfl
    rw [hstep, List.nodup_append]
    refine ⟨ihone hwc hp, ihrest hwcs hp, ?_⟩
    intro x hx1 hx2
    obtain ⟨r1, hd1, hr1⟩ := reachableOne_shape p c d hwc hp x hx1
    obtain ⟨c2, hc2, r2, hd2, hr2⟩ := reachable_shape p cs d hwcs hp x hx2
    have hcat : (FSNode.name c).data ++ r1 = (FSNode.name c2).data ++ r2 := by
      have h0 := hd1.symm.trans hd2
      rw [List.append_assoc, List.append_assoc] at h0
      have h1 := List.append_cancel_left h0
      simp only [List.cons_append] at h1
      injection h1 with _ h2
    have hwc2 : FSNode.wf c2 = true := wfChildren_mem hwcs c2 hc2
    have hnames : (FSNode.name c).data = (FSNode.name c2).data :=
      seg_eq _ _ r1 r2 (wf_name_data hwc).2 (wf_name_data hwc2).2 hr1 hr2 hcat
    exact hdist c2 hc2 (stringDataInj hnames.symm)

theorem listPaths_children_filter :
    ∀ (p : String) (cs : List FSNode) (d : Int) (sfx k : Option String),
      pySuffixNorm sfx = sfx →
      listPathsChildren p cs d sfx k = (reachableFilesI p cs d).filter (entryOk sfx k) := by
  refine listPathsChildren.induct
    (fun p node d sfx k => listPathsNode p node d sfx k =
      (reachableFilesI p (nodeChildren node) d).filter (entryOk sfx k))
    (fun p cs d sfx k => pySuffixNorm sfx = sfx →
      listPathsChildren p cs d sfx k = (reachableFilesI p cs d).filter (entryOk sfx k))
    ?_ ?_ ?_ ?_
  · intro p name d sfx k
    rfl
  · intro p name cs d sfx k ih
    have h1 := ih (pySuffixNorm_idem sfx)
    show listPathsChildren p cs d (pySuffixNorm sfx) k =
      (reachableFilesI p cs d).filter (entryOk sfx k)
    rw [h1, entryOk_norm]
  · intro p d sfx k _
    rfl
  · intro p c cs d sfx k ih1 ih2 hfix
    have htail := ih2 hfix
    cases c with
    | file n =>
      have hstep : listPathsChildren p (FSNode.file n :: cs) d sfx k =
          (if (foundList sfx k (pathJoin p n)).all id then [pathJoin p n] else [])
            ++ listPathsChildren p cs d sfx k := rfl
      have hrhs : reachableFilesI p (FSNode.file n :: cs) d =
          [pathJoin p n] ++ reachableFilesI p cs d := rfl
      rw [hstep, htail, hrhs, List.filter_append, List.filter_singleton,
        foundList_all_eq sfx k (pathJoin p n) hfix]
      cases entryOk sfx k (pathJoin p n) <;> rfl
    | dir n gcs =>
      have ihd : listPathsNode (pathJoin p n) (FSNode.dir n gcs) (d - 1) sfx k =
          (reachableFilesI (pathJoin p n) (nodeChildren (FSNode.dir n gcs)) (d - 1)).filter
            (entryOk sfx k) := ih1
      have hstep : listPathsChildren p (FSNode.dir n gcs :: cs) d sfx k =
          (if 0 < d then listPathsNode (pathJoin p n) (FSNode.dir n gcs) (d - 1) sfx k
           else []) ++ listPathsChildren p cs d sfx k := rfl
      have hrhs : reachableFilesI p (FSNode.dir n gcs :: cs) d =
          (if 0 < d then reachableFilesI (pathJoin p n) gcs (d - 1) else [])
            ++ reachableFilesI p cs d := rfl
      rw [hstep, htail, hrhs, List.filter_append]
      congr 1
      by_cases hd : 0 < d
      · rw [if_pos hd, if_pos hd, ihd]
        rfl
      · rw [if_neg hd, if_neg hd]
        rfl

theorem reachableFilesI_cast :
    ∀ (p : String) (cs : List FSNode) (d : Nat),
      reachableFilesI p cs (d : Int) = reachableFiles p cs d := by
  refine reachableFiles.induct
    (fun p cs d => reachableFilesI p cs (d : Int) = reachableFiles p cs d)
    (fun p c d => reachableOneI p c (d : Int) = reachableOne p c d)
    ?_ ?_ ?_ ?_ ?_
  · intro p n d
    rfl
  · intro p name gcs
    show (if (0 : Int) < ((0 : Nat) : Int)
          then reachableFilesI (pathJoin p name) gcs (((0 : Nat) : Int) - 1)
          else []) = reachableOne p (FSNode.dir name gcs) 0
    rw [if_neg (by omega)]
    rfl
  · intro p n gcs d ih
    show (if (0 : Int) < ((d + 1 : Nat) : Int)
          then reachableFilesI (pathJoin p n) gcs (((d + 1 : Nat) : Int) - 1)
          else []) = reachableFiles (pathJoin p n) gcs d
    rw [if_pos (by push_cast; omega),
      show ((d + 1 : Nat) : Int) - 1 = (d : Int) by push_cast; ring, ih]
  · intro p d
    rfl
  · intro p c cs d ih2 ih1
    have hl : reachableFilesI p (c :: cs) (d : Int) =
        reachableOneI p c (d : Int) ++ reachableFilesI p cs (d : Int) := rfl
    have hr : reachableFiles p (c :: cs) d =
        reachableOne p c d ++ reachableFiles p cs d := rfl
    rw [hl, hr, ih1, ih2]

/-- Master characterisation of the walker: on an existing directory,
`list_paths` yields exactly the files reachable within `depth` levels that
pass the configured checks, in traversal order. -/
theorem list_paths_dir_eq (nm p : String) (cs : List FSNode) (d : Int)
    (s k : Option String) :
    list_paths (some (.dir nm cs)) p d s k =
      .ok ((reachableFilesI p cs d).filter (entryOk s k)) := by
  show Except.ok (listPathsChildren p cs d (pySuffixNorm s) k) = _
  rw [listPaths_children_filter p cs d (pySuffixNorm s) k (pySuffixNorm_idem s),
    entryOk_norm]

theorem list_paths_dir_eq_nat (nm p : String) (cs : List FSNode) (d : Nat)
    (s k : Option String) :
    list_paths (some (.dir nm cs)) p (d : Int) s k =
      .ok ((reachableFiles p cs d).filter (entryOk s k)) := by
  rw [list_paths_dir_eq, reachableFilesI_cast]

theorem bulkLoop_copy_fileAt (dst : String) :
    ∀ fs : List String,
      bulkLoop (fun f st => shutilCopy f dst st) fs .fileAt = .ok (fs.map fun _ => dst) := by
  intro fs
  induction fs with
  | nil => rfl
  | cons f fs ih =>
    have hstep : bulkLoop (fun f st => shutilCopy f dst st) (f :: fs) .fileAt =
        match bulkLoop (fun f st => shutilCopy f dst st) fs .fileAt with
        | .error e => .error e
        | .ok ws => .ok (dst :: ws) := rfl
    rw [hstep, ih]
    rfl

theorem bulkLoop_move_fileAt (dst : String) :
    ∀ fs : List String,
      bulkLoop (fun f st => shutilMove f dst st) fs .fileAt = .ok (fs.map fun _ => dst) := by
  intro fs
  induction fs with
  | nil => rfl
  | cons f fs ih =>
    have hstep : bulkLoop (fun f st => shutilMove f dst st) (f :: fs) .fileAt =
        match bulkLoop (fun f st => shutilMove f dst st) fs .fileAt with
        | .error e => .error e
        | .ok ws => .ok (dst :: ws) := rfl
    rw [hstep, ih]
    rfl

theorem bulkLoop_copy_missing_parent (dst : String) (fs : List String) :
    bulkLoop (fun f st => shutilCopy f dst st) fs (.missing true) = .ok (fs.map fun _ => dst) := by
  cases fs with
  | nil => rfl
  | cons f fs =>
    have hstep : bulkLoop (fun f st => shutilCopy f dst st) (f :: fs) (.missing true) =
        match bulkLoop (fun f st => shutilCopy f dst st) fs .fileAt with
        | .error e => .error e
        | .ok ws => .ok (dst :: ws) := rfl
    rw [hstep, bulkLoop_copy_fileAt dst fs]
    rfl

theorem bulkLoop_move_missing_parent (dst : String) (fs : List String) :
    bulkLoop (fun f st => shutilMove f dst st) fs (.missing true) = .ok (fs.map fun _ => dst) := by
  cases fs with
  | nil => rfl
  | cons f fs =>
    have hstep : bulkLoop (fun f st => shutilMove f dst st) (f :: fs) (.missing true) =
        match bulkLoop (fun f st => shutilMove f dst st) fs .fileAt with
        | .error e => .error e
        | .ok ws => .ok (dst :: ws) := rfl
    rw [hstep, bulkLoop_move_fileAt dst fs]
    rfl

end FileUtils

/-! ## Claims -/

namespace FileUtils

/-- C1: on a well-formed directory tree (distinct, separator-free entry
names, as `os.listdir` guarantees) and a normal root path, `list_paths`
with depth `d ≥ 0` and no filters yields exactly the non-directory files
reachable within `d` levels of subdirectory recursion (depth 0 stays in the
root directory, each recursion passes `depth - 1` and stops at 0), in
traversal order, with no duplicates and no directories. -/
theorem claim1 (nm p : String) (cs : List FSNode) (d : Nat)
    (hw : wfChildren cs = true) (hp : goodPath p = true) :
    list_paths (some (.dir nm cs)) p (d : Int) none none =
      .ok (reachableFiles p cs d) ∧
    (reachableFiles p cs d).Nodup := by
  constructor
  · rw [list_paths_dir_eq_nat]
    congr 1
    exact List.filter_eq_self.mpr (fun a _ => rfl)
  · exact reachable_nodup p cs d hw hp

/-- C1 witness: the theorem applied to the concrete demo tree at depth 1,
with the resulting file set evaluated. -/
theorem claim1_witness :
    (wfChildren demoTree = true) ∧ (goodPath "/root" = true) ∧
    (list_paths (some (.dir "root" demoTree)) "/root" ((1 : Nat) : Int)
        none none = .ok (reachableFiles "/root" demoTree 1) ∧
      (reachableFiles "/root" demoTree 1).Nodup) ∧
    reachableFiles "/root" demoTree 1 =
      ["/root/a.txt", "/root/b.zip", "/root/sub/c.zip"] :=
  ⟨by decide, by decide, claim1 "root" "/root" demoTree 1 (by decide) (by decide),
   by decide⟩

/-- C2: on an existing directory, a walked file is yielded exactly when
every configured check passes — the suffix check (extension equality
against the dot-normalised suffix) and the substring check (membership in
the full constructed path) are conjunctive and independent, an absent or
empty filter is automatically satisfied, and with no filters every file is
yielded. -/
theorem claim2 (nm p : String) (cs : List FSNode) (d : Nat)
    (s k : Option String) :
    (list_paths (some (.dir nm cs)) p (d : Int) s k =
      .ok ((reachableFiles p cs d).filter (entryOk s k))) ∧
    (∀ x, x ∈ (reachableFiles p cs d).filter (entryOk s k) ↔
      x ∈ reachableFiles p cs d ∧ entryOk s k x = true) ∧
    (∀ x, entryOk none none x = true) :=
  ⟨list_paths_dir_eq_nat nm p cs d s k,
   fun _ => List.mem_filter,
   fun _ => rfl⟩

/-- C3: the suffix filter is exact, case-sensitive equality on the file's
extension after normalising the configured suffix to carry a leading dot:
in general the per-entry check under suffix `s ≠ ""` is precisely
`splitext(path)[-1] == normalised s`; concretely, suffix "zip" (and ".zip")
matches `a.zip` but neither `a.zipx` nor `a.ZIP` nor `report.zippo`. -/
theorem claim3 :
    (∀ (s t : String), s ≠ "" →
      pySuffixNorm (some s) = some (normStr s) ∧
      ((foundList (pySuffixNorm (some s)) none t).all id =
        decide (splitextExt t = normStr s))) ∧
    (list_paths (some (.dir "r" zipTree)) "/r" 0 (some "zip") none =
      .ok ["/r/a.zip"]) ∧
    (list_paths (some (.dir "r" zipTree)) "/r" 0 (some ".zip") none =
      .ok ["/r/a.zip"]) := by
  refine ⟨?_, rfl, rfl⟩
  intro s t hs
  have hnorm : pySuffixNorm (some s) = some (normStr s) := by
    rw [pySuffixNorm_some, if_neg hs]
    by_cases h2 : s.data.head? = some '.'
    · rw [if_pos h2, normStr, if_pos h2]
    · rw [if_neg h2, normStr, if_neg h2]
  refine ⟨hnorm, ?_⟩
  rw [hnorm]
  have ht : truthy (some (normStr s)) = true := by
    by_cases h2 : s.data.head? = some '.'
    · simp [truthy, normStr, h2, hs]
    · simp [truthy, normStr, h2, dot_append_ne_empty s]
  have h0 : foundList (some (normStr s)) none t =
      [decide (splitextExt t = normStr s)] := by
    unfold foundList
    rw [if_pos ht,
      if_neg (show ¬ (truthy none = true) from fun h => Bool.false_ne_true h)]
    simp
  rw [h0]
  simp

/-- C3 witness: the general part applied at suffix `"zip"` and the path
`/r/a.zipx`. -/
theorem claim3_witness :
    (("zip" : String) ≠ "") ∧
    (pySuffixNorm (some "zip") = some (normStr "zip") ∧
      ((foundList (pySuffixNorm (some "zip")) none "/r/a.zipx").all id =
        decide (splitextExt "/r/a.zipx" = normStr "zip"))) :=
  ⟨by decide, claim3.1 "zip" "/r/a.zipx" (by decide)⟩

/-- C4: a root that does not exist fails with NotFound, a root that is not
a directory fails with NotADirectory — never a silent empty result — and on
an existing directory the result is empty exactly when no reachable file
passes the filters. -/
theorem claim4 :
    (∀ (p : String) (d : Int) (s k : Option String),
      list_paths none p d s k = .error .notFound) ∧
    (∀ (n p : String) (d : Int) (s k : Option String),
      list_paths (some (.file n)) p d s k = .error .notADirectory) ∧
    (∀ (nm p : String) (cs : List FSNode) (d : Nat) (s k : Option String),
      list_paths (some (.dir nm cs)) p (d : Int) s k = .ok [] ↔
        (reachableFiles p cs d).filter (entryOk s k) = []) := by
  refine ⟨fun p d s k => rfl, fun n p d s k => rfl, ?_⟩
  intro nm p cs d s k
  rw [list_paths_dir_eq_nat]
  constructor
  · intro h
    injection h
  · intro h
    rw [h]

/-- C10: an empty-string filter behaves exactly like an absent filter, for
every root (existing or not) and every depth: `suffix=""` yields what
`suffix=None` yields, and `key_str=""` yields what `key_str=None` yields. -/
theorem claim10 :
    (∀ (res : Option FSNode) (p : String) (d : Int) (k : Option String),
      list_paths res p d (some "") k = list_paths res p d none k) ∧
    (∀ (res : Option FSNode) (p : String) (d : Int) (s : Option String),
      list_paths res p d s (some "") = list_paths res p d s none) := by
  constructor
  · intro res p d k
    cases res with
    | none => rfl
    | some node =>
      cases node with
      | file n => rfl
      | dir nm cs =>
        rw [list_paths_dir_eq, list_paths_dir_eq]
        rfl
  · intro res p d s
    cases res with
    | none => rfl
    | some node =>
      cases node with
      | file n => rfl
      | dir nm cs =>
        rw [list_paths_dir_eq, list_paths_dir_eq]
        rfl

/-- C9: `unzip` on an archive with `N` entries extracts the entries
sequentially in `namelist()` order and emits exactly `N` progress updates,
the `k`-th (0-based) carrying `completed = k + 1` and `total = N`; hence
`completed` increases monotonically from 1 to `N` and the final update has
`completed = total`; with `N = 0` no update is emitted. -/
theorem claim9 (zp : String) (entries : List String) :
    ((unzip zp entries).map Prod.fst = entries) ∧
    ((unzip zp entries).length = entries.length) ∧
    (∀ (k : Nat) (h : k < (unzip zp entries).length),
      ((unzip zp entries).get ⟨k, h⟩).2.completed = k + 1 ∧
      ((unzip zp entries).get ⟨k, h⟩).2.total = entries.length) ∧
    (∀ h : (unzip zp entries) ≠ [],
      ((unzip zp entries).getLast h).2.completed = entries.length) ∧
    (entries = [] → unzip zp entries = []) := by
  have key : ∀ (k : Nat) (h : k < (unzip zp entries).length),
      ((unzip zp entries).get ⟨k, h⟩).2 =
        ⟨1 + k, entries.length, pyBasenameOr zp⟩ :=
    fun k h => unzipLoop_get zp entries.length entries 1 k h
  have hlen : (unzip zp entries).length = entries.length :=
    unzipLoop_length zp entries.length entries 1
  refine ⟨unzipLoop_map_fst zp entries.length entries 1, hlen, ?_, ?_, ?_⟩
  · intro k h
    rw [key k h]
    exact ⟨Nat.add_comm 1 k, rfl⟩
  · intro h
    have hpos : 0 < (unzip zp entries).length := List.length_pos.mpr h
    rw [List.getLast_eq_get, key _ _]
    show 1 + ((unzip zp entries).length - 1) = entries.length
    omega
  · intro h; subst h; rfl

/-- C9 witness: the theorem applied to a concrete two-entry archive. -/
theorem claim9_witness :
    (0 < (unzip "a/b.zip" ["x", "sub/y"]).length) ∧
    ((unzip "a/b.zip" ["x", "sub/y"]).get
      ⟨0, by decide⟩).2.completed = 0 + 1 := by
  refine ⟨by decide, ?_⟩
  exact ((claim9 "a/b.zip" ["x", "sub/y"]).2.2.1 0 (by decide)).1

/-- C5 counterexample: `expiry_days = 0` is not a no-op — a directory child
created at time 0, swept at time 100 with threshold 0, is deleted and
reported. -/
theorem claim5_counterexample :
    clean_expiry_files_dirs "d" 100 [⟨.dir "old" [], 0⟩] 0 ≠ .ok [] := by
  simp [clean_expiry_files_dirs, cleanLoop, rmtree, pathJoin, FSNode.name]

/-- C5 (amended): only a strictly negative `expiry_days` is guarded: for
every directory and every `expiry_days < 0`, `clean_expiry_files_dirs`
returns at once, deleting and reporting nothing; a threshold of zero is not
guarded. -/
theorem claim5 (dirPath : String) (now : ℚ) (entries : List Entry)
    (expiry_days : ℚ) (h : expiry_days < 0) :
    clean_expiry_files_dirs dirPath now entries expiry_days = .ok [] := by
  simp [clean_expiry_files_dirs, h]

/-- C5 witness: the amended theorem at `expiry_days = -1`. -/
theorem claim5_witness :
    ((-1 : ℚ) < 0) ∧
    clean_expiry_files_dirs "d" 100 [⟨.dir "old" [], 0⟩] (-1) = .ok [] :=
  ⟨by norm_num, claim5 "d" 100 [⟨.dir "old" [], 0⟩] (-1) (by norm_num)⟩

/-- C6 counterexample: with `thresholdDays = 0` the code does not delete
"every child whose age is positive": on a plain-file child of positive age
`shutil.rmtree` raises `NotADirectoryError` instead of deleting it. -/
theorem claim6_counterexample :
    clean_expiry_files_dirs "d" 100 [⟨.file "f.txt", 0⟩] 0 = .error .notADirectory := by
  simp [clean_expiry_files_dirs, cleanLoop, rmtree, pathJoin, FSNode.name]

/-- C6 (amended): `thresholdDays = -1` deletes nothing regardless of child
ages, and `thresholdDays = 0` deletes and reports exactly the children of
strictly positive age — provided those children are directories (on a
plain-file child the deletion call fails instead, see C7). -/
theorem claim6 :
    (∀ (dirPath : String) (now : ℚ) (entries : List Entry),
      clean_expiry_files_dirs dirPath now entries (-1) = .ok []) ∧
    (∀ (dirPath : String) (now : ℚ) (entries : List Entry),
      (∀ e ∈ entries, ∃ n gcs, e.node = FSNode.dir n gcs) →
      clean_expiry_files_dirs dirPath now entries 0 =
        .ok ((entries.filter (fun e => decide (0 < now - e.ctime))).map
              (fun e => pathJoin dirPath e.node.name))) := by
  constructor
  · intro dirPath now entries
    simp [clean_expiry_files_dirs]
  · intro dirPath now entries hdirs
    have h0 : ¬ ((0 : ℚ) < 0) := lt_irrefl 0
    simp only [clean_expiry_files_dirs, if_neg h0]
    have hz : (0 : ℚ) * 24 * 60 ^ 2 = 0 := by ring
    rw [hz]
    induction entries with
    | nil => rfl
    | cons e es ih =>
      obtain ⟨n, gcs, hnode⟩ := hdirs e (List.mem_cons_self e es)
      have ihs := ih (fun x hx => hdirs x (List.mem_cons_of_mem e hx))
      by_cases hage : (0 : ℚ) < now - e.ctime
      · have hage2 : e.ctime < now := sub_pos.mp hage
        simp [cleanLoop, hage, hnode, rmtree, ihs, FSNode.name, List.filter_cons, hage2]
      · have hage2 : ¬ e.ctime < now := fun hh => hage (sub_pos.mpr hh)
        simp [cleanLoop, hage, ihs, List.filter_cons, hage2]

/-- C6 witness: the amended theorem at a concrete sweep — two directory
children, one expired and one fresh. -/
theorem claim6_witness :
    (clean_expiry_files_dirs "d" 100 [⟨.dir "old" [], 0⟩] (-1) = .ok []) ∧
    ((∀ e ∈ [(⟨.dir "old" [], 0⟩ : Entry), ⟨.dir "new" [], 100⟩],
        ∃ n gcs, e.node = FSNode.dir n gcs) ∧
      clean_expiry_files_dirs "d" 100 [⟨.dir "old" [], 0⟩, ⟨.dir "new" [], 100⟩] 0 =
        .ok (([(⟨.dir "old" [], 0⟩ : Entry), ⟨.dir "new" [], 100⟩].filter
                (fun e => decide (0 < (100 : ℚ) - e.ctime))).map
              (fun e => pathJoin "d" e.node.name))) := by
  refine ⟨claim6.1 "d" 100 [⟨.dir "old" [], 0⟩], ?_, ?_⟩
  · intro e he
    simp only [List.mem_cons, List.mem_singleton] at he
    rcases he with h | h | h
    · exact ⟨"old", [], by rw [h]⟩
    · exact ⟨"new", [], by rw [h]⟩
    · cases h
  · refine claim6.2 "d" 100 [⟨.dir "old" [], 0⟩, ⟨.dir "new" [], 100⟩] ?_
    intro e he
    simp only [List.mem_cons, List.mem_singleton] at he
    rcases he with h | h | h
    · exact ⟨"old", [], by rw [h]⟩
    · exact ⟨"new", [], by rw [h]⟩
    · cases h

/-- C8 counterexample: with a missing destination directory (whose parent
exists) neither `copy_files` nor `move_files` fails with NotFound: walking
`/s` (one file `a.txt`) into the non-existent destination `/dst/out`
succeeds and writes a plain file at the path `/dst/out` itself. -/
theorem claim8_counterexample :
    copy_files (some (.dir "s" [.file "a.txt"])) "/s" "/dst/out" (.missing true)
        0 none none = .ok ["/dst/out"] ∧
    move_files (some (.dir "s" [.file "a.txt"])) "/s" "/dst/out" (.missing true)
        0 none = .ok ["/dst/out"] :=
  ⟨rfl, rfl⟩

/-- C8 (amended): `copy_files` and `move_files` never create a destination
directory.  When the destination path is missing and its parent directory is
missing too, the first file operation fails with NotFound; when the
destination path is missing but its parent exists, the operation silently
creates a plain file at the destination path and writes every walked file to
that same path (each overwriting the previous), rather than failing. -/
theorem claim8 :
    (∀ (src : Option FSNode) (srcDir dstDir : String) (depth : Int)
        (suffix keyStr : Option String) (files : List String),
      list_paths src srcDir depth suffix keyStr = .ok files → files ≠ [] →
      copy_files src srcDir dstDir (.missing false) depth suffix keyStr =
        .error (.sh .notFound)) ∧
    (∀ (src : Option FSNode) (srcDir dstDir : String) (depth : Int)
        (suffix : Option String) (files : List String),
      list_paths src srcDir depth suffix none = .ok files → files ≠ [] →
      move_files src srcDir dstDir (.missing false) depth suffix =
        .error (.sh .notFound)) ∧
    (∀ (src : Option FSNode) (srcDir dstDir : String) (depth : Int)
        (suffix keyStr : Option String) (files : List String),
      list_paths src srcDir depth suffix keyStr = .ok files →
      copy_files src srcDir dstDir (.missing true) depth suffix keyStr =
        .ok (files.map fun _ => dstDir)) ∧
    (∀ (src : Option FSNode) (srcDir dstDir : String) (depth : Int)
        (suffix : Option String) (files : List String),
      list_paths src srcDir depth suffix none = .ok files →
      move_files src srcDir dstDir (.missing true) depth suffix =
        .ok (files.map fun _ => dstDir)) := by
  refine ⟨?_, ?_, ?_, ?_⟩
  · intro src srcDir dstDir depth suffix keyStr files hw hne
    cases files with
    | nil => exact absurd rfl hne
    | cons f fs => simp [copy_files, hw, bulkLoop, shutilCopy]
  · intro src srcDir dstDir depth suffix files hw hne
    cases files with
    | nil => exact absurd rfl hne
    | cons f fs => simp [move_files, hw, bulkLoop, shutilMove]
  · intro src srcDir dstDir depth suffix keyStr files hw
    simp [copy_files, hw, bulkLoop_copy_missing_parent]
  · intro src srcDir dstDir depth suffix files hw
    simp [move_files, hw, bulkLoop_move_missing_parent]

/-- C8 witness: the amended theorem at a concrete one-file source tree,
for both destination situations. -/
theorem claim8_witness :
    (list_paths (some (.dir "s" [.file "a.txt"])) "/s" 0 none none =
        .ok ["/s/a.txt"]) ∧
    (["/s/a.txt"] ≠ ([] : List String)) ∧
    (copy_files (some (.dir "s" [.file "a.txt"])) "/s" "/no/dst" (.missing false)
        0 none none = .error (.sh .notFound)) ∧
    (copy_files (some (.dir "s" [.file "a.txt"])) "/s" "/par/dst" (.missing true)
        0 none none = .ok (["/s/a.txt"].map fun _ => "/par/dst")) :=
  ⟨rfl, by decide,
   claim8.1 (some (.dir "s" [.file "a.txt"])) "/s" "/no/dst" 0 none none
     ["/s/a.txt"] rfl (by decide),
   claim8.2.2.1 (some (.dir "s" [.file "a.txt"])) "/s" "/par/dst" 0 none none
     ["/s/a.txt"] rfl⟩

/-- C7 (code bug): the sweep is claimed (and documented in the source) to
delete expired plain files as well as directories, but the code calls
`shutil.rmtree` on every expired child, and `rmtree` on a plain file raises
`NotADirectoryError`: a file child created at time 0 and swept at time
200000 with a 1-day threshold makes the call fail instead of deleting and
reporting the file. -/
theorem claim7 :
    clean_expiry_files_dirs "d" 200000 [⟨.file "old.txt", 0⟩] 1 =
      .error .notADirectory ∧
    clean_expiry_files_dirs "d" 200000 [⟨.dir "olddir" [], 0⟩] 1 =
      .ok ["d/olddir"] := by
  constructor
  · norm_num [clean_expiry_files_dirs, cleanLoop, rmtree, pathJoin, FSNode.name]
  · norm_num [clean_expiry_files_dirs, cleanLoop, rmtree, FSNode.name]
    decide

end FileUtils
